import Mathlib

/-!
# Verification of the MPMCThreadPool specification

Shallow embedding of `include/MPMCThreadPool/MPMCThreadPool.hpp` from the
MPMCThreadPool repository.  The header declares every class and member; the
method bodies live in `include/MPMCThreadPool/inlines/MPMCThreadPool.inl`,
which the header includes at its last line but which is not part of the
source tree given here.  Consequently all behavioural definitions below are
modelled from the specification text (sections 4.1, 4.2, 4.3), while the
structural definitions (deleted special members, default template arguments,
data members) are taken directly from the header's declarations.
-/

namespace MPMCTP

/-! ## Completion strategies (spec section 4.2)

The lock-free (polling) strategy `TaskPackTraitsLockFree` holds the members
declared at header lines 415-418: `_size`, an atomic `_nCompletedTasks`, an
`_interval`, and an optional `_callback`.  Machine integers are modelled as
`Nat` (a `std::size_t` counter incremented at most once per task never gets
near 2^64, and the spec describes it as an exact count). -/

/-- Modelled from the spec: the state of a `TaskPackTraitsLockFree` instance
(header lines 274-419 declare members `_size`, `_nCompletedTasks`,
`_interval`, `_callback`; the bodies in `inlines/MPMCThreadPool.inl` are
missing from the tree).  Spec section 3: "an expected batch size `size`; an
atomically-updated completed-count; ... (polling variant) a poll interval".
The optional callback is represented by the flag `hasCallback` plus the
event trace that the operations below emit. -/
structure LockFreeState where
  sizeTP : Nat
  nCompletedTasks : Nat
  interval : Nat
  hasCallback : Bool
deriving DecidableEq, Repr

/-- Observable events emitted by a completion-strategy operation, used to
state ordering properties ("invoke the callback, then increment", "set the
done flag and wake all waiters"). -/
inductive SigEvent where
  | callbackCall (i : Nat)
  | increment
  | lockWaitMutex
  | setWaitWoken
  | notifyAllWaiters
deriving DecidableEq, Repr

/-- Modelled from the spec: a fresh lock-free strategy for a batch of `n`
tasks, zero completed, default interval 0, no callback installed. -/
def LockFreeState.fresh (n : Nat) : LockFreeState :=
  ⟨n, 0, 0, false⟩

/-- Modelled from the spec: `TaskPackTraitsLockFree::signalTaskComplete(i)`
(declared at header line 389; body missing).  Spec section 4.2: "invoke
callback(i) if set, then atomically increment the count".  Returns the new
state together with the emitted events in order. -/
def LockFreeState.signalTaskComplete (s : LockFreeState) (i : Nat) :
    LockFreeState × List SigEvent :=
  (⟨s.sizeTP, s.nCompletedTasks + 1, s.interval, s.hasCallback⟩,
   (if s.hasCallback then [SigEvent.callbackCall i] else []) ++ [SigEvent.increment])

/-- Modelled from the spec: `TaskPackTraitsLockFree::nCompletedTasks()`
(declared at header line 395; body missing): "Return the number of completed
tasks so far". -/
def LockFreeState.nCompleted (s : LockFreeState) : Nat :=
  s.nCompletedTasks

/-- Modelled from the spec: the exit test of the polling `wait()` loop
(declared at header line 403; body missing).  Spec section 4.2: "repeatedly
read the count; if below `size`, sleep for `interval` (or spin if zero) and
retry; return once the count reaches `size`".  The loop exits exactly when
the read count is no longer below `_size`. -/
def LockFreeState.waitCheck (s : LockFreeState) : Bool :=
  s.sizeTP ≤ s.nCompletedTasks

/-- Modelled from the spec: the polling `wait()` loop run against the
sequence of counter values the waiting thread successively reads.  Returns
the index of the read at which `wait()` returns, or `none` if no read in the
list reaches `sizeTP`. -/
def pollingWait (sizeTP : Nat) : List Nat → Option Nat
  | [] => none
  | c :: rest =>
      if sizeTP ≤ c then some 0 else (pollingWait sizeTP rest).map (fun j => j + 1)

/-- Modelled from the spec: fold `signalTaskComplete` over a trace of task
indices (the order in which workers complete tasks of the pack). -/
def runSignals (s : LockFreeState) : List Nat → LockFreeState
  | [] => s
  | i :: rest => runSignals (s.signalTaskComplete i).1 rest

/-- Modelled from the spec: the state of a `TaskPackTraitsBlocking`
instance (header lines 431-521; bodies in the missing
`inlines/MPMCThreadPool.inl`).  Spec section 3: "(blocking variant)
additionally a mutex, a condition variable, and a 'done' flag". -/
structure BlockingState where
  base : LockFreeState
  waitWoken : Bool
deriving DecidableEq, Repr

/-- Modelled from the spec: a fresh blocking strategy for `n` tasks: the
embedded lock-free part is fresh and the done flag is clear. -/
def BlockingState.fresh (n : Nat) : BlockingState :=
  ⟨LockFreeState.fresh n, false⟩

/-- Modelled from the spec:
`TaskPackTraitsBlocking::signalTaskComplete(i)` (declared at header line
503; body missing).  Spec section 4.2: "same callback + increment as above;
if the post-increment count equals `size`, acquire the mutex, set the
'done' flag, and wake all waiters". -/
def BlockingState.signalTaskComplete (s : BlockingState) (i : Nat) :
    BlockingState × List SigEvent :=
  (⟨⟨s.base.sizeTP, s.base.nCompletedTasks + 1, s.base.interval, s.base.hasCallback⟩,
    s.waitWoken || decide (s.base.nCompletedTasks + 1 = s.base.sizeTP)⟩,
   (if s.base.hasCallback then [SigEvent.callbackCall i] else []) ++
     [SigEvent.increment] ++
     (if s.base.nCompletedTasks + 1 = s.base.sizeTP then
        [SigEvent.lockWaitMutex, SigEvent.setWaitWoken, SigEvent.notifyAllWaiters]
      else []))

/-- Modelled from the spec: the exit condition of the blocking `wait()`
(declared at header line 513; body missing): "acquire the mutex and block
on the condition variable until the 'done' flag is set, then return".  The
call can return exactly when `_waitWoken` is set. -/
def BlockingState.waitReturns (s : BlockingState) : Bool :=
  s.waitWoken

/-- Modelled from the spec: fold the blocking `signalTaskComplete` over a
trace of task indices. -/
def runSignalsB (s : BlockingState) : List Nat → BlockingState
  | [] => s
  | i :: rest => runSignalsB (s.signalTaskComplete i).1 rest

/-- Modelled from the spec: the mutable state of a `TaskPack<R,Traits>`
whose `size` slots have all been populated by `setTaskAt` (bodies in the
missing `inlines/MPMCThreadPool.inl`).  The bound functions are summarised
by the value each returns when invoked, see `runPackTask`. -/
structure PackState (R : Type) where
  results : List (Option R)
  strat : LockFreeState

/-- Observable events of one wrapped work item produced by `setTaskAt`. -/
inductive TaskEvent where
  | invokeBound (i : Nat)
  | storeResult (i : Nat)
  | signalComplete (i : Nat)
deriving DecidableEq, Repr

/-- Modelled from the spec: a fresh pack of `n` tasks: `n` empty result
slots and a fresh strategy of size `n`. -/
def PackState.freshPack (R : Type) (n : Nat) : PackState R :=
  ⟨List.replicate n none, LockFreeState.fresh n⟩

/-- Modelled from the spec: a worker executes the work item that
`setTaskAt(i, f, args...)` placed in slot `i`.  `funcs i` is the value
`f(args...)` returns.  Spec section 4.3: invocation "(1) calls `f(args)`;
(2) ... stores the return value into result slot `i`; (3) calls the
strategy's `signalTaskComplete(i)`". -/
def runPackTask {R : Type} (funcs : Nat → R) (p : PackState R) (i : Nat) :
    PackState R × List TaskEvent :=
  (⟨p.results.set i (some (funcs i)), (p.strat.signalTaskComplete i).1⟩,
   [TaskEvent.invokeBound i, TaskEvent.storeResult i, TaskEvent.signalComplete i])

/-- Modelled from the spec: workers execute the pack's work items in some
order `ord` (one entry per executed slot index). -/
def runPackTasks {R : Type} (funcs : Nat → R) (p : PackState R) : List Nat → PackState R
  | [] => p
  | i :: rest => runPackTasks funcs (runPackTask funcs p i).1 rest

/-- Modelled from the spec: `TaskPack<R,Traits>::resultAt(i)` (declared at
header line 761; body missing): "Get the result of the task at position
i". -/
def PackState.resultAt {R : Type} (p : PackState R) (i : Nat) : Option R :=
  (p.results[i]?).getD none

/-- Modelled from the spec: the control state of one worker's loop in
`MPMCThreadPool::threadJob` (declared at header line 233; body missing).
`checkingW`: at the top of the loop about to test its flag; `busyW t`:
executing the dequeued work item `t`; `parkedW`: blocked on the pool's
condition variable; `retiredW`: loop exited, thread joinable. -/
inductive WorkerStatus where
  | checkingW
  | busyW (t : Nat)
  | parkedW
  | retiredW
deriving DecidableEq, Repr

/-- Modelled from the spec: one worker slot — a thread of execution paired
with its boolean keep-running flag (`_actives[j]`, header line 245). -/
structure WorkerSlot where
  keepRunning : Bool
  status : WorkerStatus
deriving DecidableEq, Repr

/-- Modelled from the spec: the pool state visible to the claims: the
global `_active` flag, the worker slots, and the live count `_nActives`
(header lines 243-250). -/
structure PoolState where
  poolActive : Bool
  slots : List WorkerSlot
  nActives : Nat
deriving DecidableEq, Repr

/-- Number of slots whose keep-running flag is currently true. -/
def countFlags (l : List WorkerSlot) : Nat :=
  l.countP (fun sl => sl.keepRunning)

/-- Number of slots whose worker has not yet retired. -/
def countNonRetired (l : List WorkerSlot) : Nat :=
  l.countP (fun sl => decide (¬ sl.status = WorkerStatus.retiredW))

/-- Number of in-flight retirements: flag already false, worker not yet
retired (it has not yet noticed the flag, or is finishing a task). -/
def countInFlight (l : List WorkerSlot) : Nat :=
  l.countP (fun sl => !sl.keepRunning && decide (¬ sl.status = WorkerStatus.retiredW))

/-- Modelled from the spec: `MPMCThreadPool::MPMCThreadPool(size)` (header
line 80; body missing): "spawns `size` worker threads ..., all become
active immediately". -/
def PoolState.construct (n : Nat) : PoolState :=
  ⟨true, List.replicate n ⟨true, WorkerStatus.checkingW⟩, n⟩

/-- Modelled from the spec: `MPMCThreadPool::expand(n)` (header line 142;
body missing): "spawns `n` additional worker threads, each immediately
eligible to dequeue; increases live count by `n`". -/
def PoolState.expand (p : PoolState) (n : Nat) : PoolState :=
  ⟨p.poolActive, p.slots ++ List.replicate n ⟨true, WorkerStatus.checkingW⟩,
   p.nActives + n⟩

/-- Modelled from the spec: the selection loop inside
`MPMCThreadPool::shrink(n)`: flip the flags of up to `n` currently active
slots to false (the spec leaves the selection arbitrary; the model takes
the first ones). -/
def flipFirstTrue : Nat → List WorkerSlot → List WorkerSlot
  | _, [] => []
  | 0, l => l
  | n + 1, sl :: rest =>
      if sl.keepRunning then ⟨false, sl.status⟩ :: flipFirstTrue n rest
      else sl :: flipFirstTrue (n + 1) rest

/-- Modelled from the spec: `MPMCThreadPool::shrink(n)` (header line 153;
body missing): "selects up to `min(n, size())` currently active slots ...
and flips their flags to false.  This call does not block": the live count
is decremented later, by the retiring workers themselves. -/
def PoolState.shrink (p : PoolState) (n : Nat) : PoolState :=
  ⟨p.poolActive, flipFirstTrue n p.slots, p.nActives⟩

/-- Whether the worker in slot `j` can retire now: its flag is false and it
has not retired yet. -/
def retireEligible (j : Nat) (l : List WorkerSlot) : Bool :=
  match l[j]? with
  | some sl => decide (sl.keepRunning = false ∧ ¬ sl.status = WorkerStatus.retiredW)
  | none => false

/-- Mark the slot at position `j` retired when it is eligible. -/
def setRetiredAt : Nat → List WorkerSlot → List WorkerSlot
  | _, [] => []
  | 0, sl :: rest =>
      if sl.keepRunning = false ∧ ¬ sl.status = WorkerStatus.retiredW then
        ⟨sl.keepRunning, WorkerStatus.retiredW⟩ :: rest
      else sl :: rest
  | j + 1, sl :: rest => sl :: setRetiredAt j rest

/-- Modelled from the spec: a worker whose flag became false "notices the
flag at the top of its own loop, finishes any task in hand, decrements the
live count, and exits" (spec section 4.1, shrink). -/
def PoolState.retire (p : PoolState) (j : Nat) : PoolState :=
  if retireEligible j p.slots then
    ⟨p.poolActive, setRetiredAt j p.slots, p.nActives - 1⟩
  else p

/-- The operations that change the pool's slot bookkeeping (spec section
4.1): expanding, shrinking, and a single worker's retirement. -/
inductive PoolOp where
  | expandOp (n : Nat)
  | shrinkOp (n : Nat)
  | retireOp (j : Nat)
deriving DecidableEq, Repr

/-- One bookkeeping transition of the pool. -/
def PoolState.step (p : PoolState) : PoolOp → PoolState
  | PoolOp.expandOp n => p.expand n
  | PoolOp.shrinkOp n => p.shrink n
  | PoolOp.retireOp j => p.retire j

/-- Run a sequence of bookkeeping transitions. -/
def runOps (p : PoolState) : List PoolOp → PoolState
  | [] => p
  | op :: rest => runOps (p.step op) rest

/-- The pool bookkeeping invariant: the live count `_nActives` equals the
number of slots whose worker has not retired yet, and a slot whose flag is
still true has never retired. -/
def PoolInv (p : PoolState) : Prop :=
  p.nActives = countNonRetired p.slots ∧
    ∀ sl ∈ p.slots, sl.keepRunning = true → ¬ sl.status = WorkerStatus.retiredW

/-- Modelled from the spec: the effect on a parked worker of notifying the
pool's condition variable: it resumes at the top of the loop; every other
state is unaffected by a notification. -/
def wakeStatus : WorkerStatus → WorkerStatus
  | WorkerStatus.parkedW => WorkerStatus.checkingW
  | w => w

/-- Modelled from the spec: one step of the worker loop of
`MPMCThreadPool::threadJob` (declared at header line 233; body missing),
acting on the worker's control state, the shared task queue, and the list
of work items executed so far.  `keep` is the slot's keep-running flag. -/
def stepWorker (keep : Bool) :
    WorkerStatus × List Nat × List Nat → WorkerStatus × List Nat × List Nat
  | (WorkerStatus.checkingW, q, ex) =>
      if keep then
        match q with
        | [] => (WorkerStatus.parkedW, [], ex)
        | t :: q2 => (WorkerStatus.busyW t, q2, ex)
      else (WorkerStatus.retiredW, q, ex)
  | (WorkerStatus.busyW t, q, ex) => (WorkerStatus.checkingW, q, ex ++ [t])
  | (WorkerStatus.parkedW, q, ex) => (WorkerStatus.parkedW, q, ex)
  | (WorkerStatus.retiredW, q, ex) => (WorkerStatus.retiredW, q, ex)

/-- The work item a worker currently holds, if any: it was dequeued before
and is no longer in the queue. -/
def inHand : WorkerStatus → List Nat
  | WorkerStatus.busyW t => [t]
  | _ => []

/-- Modelled from the spec: the first phase of
`MPMCThreadPool::~MPMCThreadPool()` (declared at header line 104; body
missing): "flips the global active flag and every slot's flag to false,
wakes all parked workers" (spec section 4.1); the join phase is the
workers' own loop steps, see `stepWorker`. -/
def PoolState.destructFlip (p : PoolState) : PoolState :=
  ⟨false, p.slots.map (fun sl => ⟨false, wakeStatus sl.status⟩), p.nActives⟩

/-! ## Declared special members and default template arguments

These definitions are taken directly from the header (which declares them
in full), not modelled from the spec. -/

/-- How a C++ special member function is declared in the header: explicitly
`= delete` or explicitly `= default`. -/
inductive SpecialMemberDecl where
  | declaredDeleted
  | declaredDefault
deriving DecidableEq, Repr

/-- The four copy/move special members of one class, as declared in the
header. -/
structure SpecialMembers where
  copyCtorDecl : SpecialMemberDecl
  moveCtorDecl : SpecialMemberDecl
  copyAssignDecl : SpecialMemberDecl
  moveAssignDecl : SpecialMemberDecl
deriving DecidableEq, Repr

/-- One non-static data member (or base-class subobject), with whether its
type is copy-constructible and move-constructible.  The two booleans encode
facts of the C++ standard library types involved (`std::mutex`,
`std::condition_variable`, `std::atomic`, `std::atomic_flag` are neither;
`std::deque` and `moodycamel::ConcurrentQueue` are movable). -/
structure MemberSpec where
  memberLabel : String
  memberCopyable : Bool
  memberMovable : Bool
deriving DecidableEq, Repr

/-- Whether the declared copy operation is usable, per C++ rules: a deleted
declaration is never usable; a defaulted one is implicitly deleted (hence
unusable) unless every member is copyable ([class.copy.ctor]/10,
[class.copy.assign]/7). -/
def copyOpUsable (d : SpecialMemberDecl) (members : List MemberSpec) : Bool :=
  match d with
  | SpecialMemberDecl.declaredDeleted => false
  | SpecialMemberDecl.declaredDefault => members.all (fun m => m.memberCopyable)

/-- Whether the declared move operation is usable, per the same C++ rules
with move-constructibility of the members. -/
def moveOpUsable (d : SpecialMemberDecl) (members : List MemberSpec) : Bool :=
  match d with
  | SpecialMemberDecl.declaredDeleted => false
  | SpecialMemberDecl.declaredDefault => members.all (fun m => m.memberMovable)

/-- A type whose every copy and move operation is unusable can never be
copied or relocated after construction. -/
def relocatable (d : SpecialMembers) (members : List MemberSpec) : Bool :=
  copyOpUsable d.copyCtorDecl members || moveOpUsable d.moveCtorDecl members ||
    copyOpUsable d.copyAssignDecl members || moveOpUsable d.moveAssignDecl members

/-- `MPMCThreadPool`'s special members as declared at header lines 85, 90,
117, 122: copy operations `= delete`, move operations `= default`. -/
def mpmcThreadPoolDecls : SpecialMembers :=
  ⟨SpecialMemberDecl.declaredDeleted, SpecialMemberDecl.declaredDefault,
   SpecialMemberDecl.declaredDeleted, SpecialMemberDecl.declaredDefault⟩

/-- `MPMCThreadPool`'s non-static data members, header lines 243-250.
`std::atomic_flag`, `std::atomic_size_t`, `std::atomic_bool`, `std::mutex`
and `std::condition_variable` are neither copyable nor movable;
`std::deque` is movable regardless of its element type but copyable only
when its elements are (`std::thread` and `std::atomic_bool` are not);
`moodycamel::ConcurrentQueue` deletes its copy operations and provides move
operations. -/
def mpmcThreadPoolMembers : List MemberSpec :=
  [⟨"_flag", false, false⟩,
   ⟨"_threads", false, true⟩,
   ⟨"_actives", false, true⟩,
   ⟨"_nActives", false, false⟩,
   ⟨"_taskQueue", false, true⟩,
   ⟨"_active", false, false⟩,
   ⟨"_mutex", false, false⟩,
   ⟨"_condVar", false, false⟩]

/-- `TaskPack<R, TaskPackTraits>`'s special members, header lines 712, 717,
730, 735: all four explicitly `= delete`. -/
def taskPackDecls : SpecialMembers :=
  ⟨SpecialMemberDecl.declaredDeleted, SpecialMemberDecl.declaredDeleted,
   SpecialMemberDecl.declaredDeleted, SpecialMemberDecl.declaredDeleted⟩

/-- `TaskPack<void, TaskPackTraits>`'s special members, header lines 799,
804, 817, 822: all four explicitly `= delete`. -/
def taskPackVoidDecls : SpecialMembers :=
  ⟨SpecialMemberDecl.declaredDeleted, SpecialMemberDecl.declaredDeleted,
   SpecialMemberDecl.declaredDeleted, SpecialMemberDecl.declaredDeleted⟩

/-- `internal::TaskPackBase`'s special members, header lines 571, 576, 589,
594: all four explicitly `= delete`. -/
def taskPackBaseDecls : SpecialMembers :=
  ⟨SpecialMemberDecl.declaredDeleted, SpecialMemberDecl.declaredDeleted,
   SpecialMemberDecl.declaredDeleted, SpecialMemberDecl.declaredDeleted⟩

/-- `TaskPack`'s subobjects: the `internal::TaskPackBase` base (deleted
copy and move, header lines 571-594), the traits base
(`TaskPackTraitsLockFree` deletes its copy and move, header lines 307-339),
and the `_results` container (header line 766). -/
def taskPackMembers : List MemberSpec :=
  [⟨"internal::TaskPackBase", false, false⟩,
   ⟨"TaskPackTraits", false, false⟩,
   ⟨"_results", true, true⟩]

/-- The two completion strategies named by the header. -/
inductive CompletionStrategyId where
  | lockFreeStrategy
  | blockingStrategy
deriving DecidableEq, Repr

/-- Header line 526: `using TaskPackTraitsDefault = TaskPackTraitsBlocking;`. -/
def TaskPackTraitsDefault : CompletionStrategyId :=
  CompletionStrategyId.blockingStrategy

/-- Header line 690: `template < class R, class TaskPackTraits =
TaskPackTraitsDefault > class TaskPack`: the traits argument a `TaskPack`
uses when none is named. -/
def taskPackDefaultTraitsArg : CompletionStrategyId :=
  TaskPackTraitsDefault

/-! ## Lemmas -/

theorem runSignals_nil (s : LockFreeState) : runSignals s [] = s := rfl

theorem runSignals_cons (s : LockFreeState) (i : Nat) (t : List Nat) :
    runSignals s (i :: t) = runSignals (s.signalTaskComplete i).1 t := rfl

theorem runSignals_append (s : LockFreeState) (t1 t2 : List Nat) :
    runSignals s (t1 ++ t2) = runSignals (runSignals s t1) t2 := by
  induction t1 generalizing s with
  | nil => rfl
  | cons i t ih => simp [runSignals_cons, ih]

/-- The completed-count after a trace of signals is the initial count plus
the number of signals: each signal adds exactly one. -/
theorem runSignals_nCompletedTasks (s : LockFreeState) (t : List Nat) :
    (runSignals s t).nCompletedTasks = s.nCompletedTasks + t.length := by
  induction t generalizing s with
  | nil => simp [runSignals]
  | cons i rest ih =>
      simp [runSignals_cons, ih, LockFreeState.signalTaskComplete]
      omega

theorem runSignals_sizeTP (s : LockFreeState) (t : List Nat) :
    (runSignals s t).sizeTP = s.sizeTP := by
  induction t generalizing s with
  | nil => rfl
  | cons i rest ih => simp [runSignals_cons, ih, LockFreeState.signalTaskComplete]

/-- If the polling wait loop returns at read index `j`, then the value read
there has reached `sizeTP` and every earlier read was still below it. -/
theorem pollingWait_returns (sizeTP : Nat) (reads : List Nat) (j : Nat)
    (h : pollingWait sizeTP reads = some j) :
    (∃ c, reads[j]? = some c ∧ sizeTP ≤ c) ∧
      ∀ m, m < j → ∃ c, reads[m]? = some c ∧ c < sizeTP := by
  induction reads generalizing j with
  | nil => simp [pollingWait] at h
  | cons c rest ih =>
      by_cases hc : sizeTP ≤ c
      · simp [pollingWait, hc] at h
        subst h
        exact ⟨⟨c, by simp, hc⟩, fun m hm => absurd hm (Nat.not_lt_zero m)⟩
      · simp [pollingWait, hc] at h
        obtain ⟨j0, hj0, rfl⟩ := h
        obtain ⟨⟨d, hd, hdge⟩, hbelow⟩ := ih j0 hj0
        refine ⟨⟨d, by simpa using hd, hdge⟩, ?_⟩
        intro m hm
        match m with
        | 0 => exact ⟨c, by simp, Nat.lt_of_not_le hc⟩
        | m0 + 1 =>
            obtain ⟨e, he, helt⟩ := hbelow m0 (by omega)
            exact ⟨e, by simpa using he, helt⟩

/-! ## Blocking completion strategy (spec section 4.2)

`TaskPackTraitsBlocking` derives from `TaskPackTraitsLockFree` (header line
431) and adds the members `_waitWoken`, `_waitMutex`, `_waitCondVar`
(header lines 518-520).  The mutex and condition variable have no state
that the claims mention beyond the wake events, so the model keeps the
"done" flag `_waitWoken` and emits lock/notify events. -/

theorem runSignalsB_cons (s : BlockingState) (i : Nat) (t : List Nat) :
    runSignalsB s (i :: t) = runSignalsB (s.signalTaskComplete i).1 t := rfl

theorem runSignalsB_base_nCompletedTasks (s : BlockingState) (t : List Nat) :
    (runSignalsB s t).base.nCompletedTasks = s.base.nCompletedTasks + t.length := by
  induction t generalizing s with
  | nil => simp [runSignalsB]
  | cons i rest ih =>
      simp [runSignalsB_cons, ih, BlockingState.signalTaskComplete]
      omega

theorem runSignalsB_base_sizeTP (s : BlockingState) (t : List Nat) :
    (runSignalsB s t).base.sizeTP = s.base.sizeTP := by
  induction t generalizing s with
  | nil => rfl
  | cons i rest ih => simp [runSignalsB_cons, ih, BlockingState.signalTaskComplete]

/-- The done flag after a trace of signals: set exactly when some signal in
the trace produced a post-increment count equal to `_size`. -/
theorem runSignalsB_waitWoken (s : BlockingState) (t : List Nat) :
    (runSignalsB s t).waitWoken = true ↔
      (s.waitWoken = true ∨
        (s.base.nCompletedTasks < s.base.sizeTP ∧
          s.base.sizeTP ≤ s.base.nCompletedTasks + t.length)) := by
  induction t generalizing s with
  | nil =>
      simp only [runSignalsB, List.length_nil, Nat.add_zero]
      constructor
      · exact Or.inl
      · rintro (h | ⟨h1, h2⟩)
        · exact h
        · omega
  | cons i rest ih =>
      rw [runSignalsB_cons, ih]
      simp only [BlockingState.signalTaskComplete, Bool.or_eq_true, decide_eq_true_eq,
        List.length_cons]
      by_cases hw : s.waitWoken = true
      · simp [hw]
      · simp [hw]
        omega

/-! ## Task pack (spec section 4.3)

`TaskPack<R, TaskPackTraits>` (header lines 690-767) owns the task
container of its base `internal::TaskPackBase` plus a parallel result
container `_results` (header line 766).  `setTaskAt(i, f, args...)`
(declared at line 752) wraps the bound call so that running the work item
(1) invokes `f(args...)`, (2) stores the returned value into result slot
`i`, (3) calls `signalTaskComplete(i)`.  A result slot is `Option R`:
`none` until the wrapped task has stored into it. -/

theorem runPackTasks_cons {R : Type} (funcs : Nat → R) (p : PackState R) (i : Nat)
    (rest : List Nat) :
    runPackTasks funcs p (i :: rest) = runPackTasks funcs (runPackTask funcs p i).1 rest := rfl

theorem runPackTasks_length {R : Type} (funcs : Nat → R) (p : PackState R) (ord : List Nat) :
    (runPackTasks funcs p ord).results.length = p.results.length := by
  induction ord generalizing p with
  | nil => rfl
  | cons i rest ih => simp [runPackTasks_cons, ih, runPackTask]

theorem runPackTasks_strat_nCompletedTasks {R : Type} (funcs : Nat → R) (p : PackState R)
    (ord : List Nat) :
    (runPackTasks funcs p ord).strat.nCompletedTasks =
      p.strat.nCompletedTasks + ord.length := by
  induction ord generalizing p with
  | nil => simp [runPackTasks]
  | cons i rest ih =>
      simp [runPackTasks_cons, ih, runPackTask, LockFreeState.signalTaskComplete]
      omega

theorem runPackTasks_strat_sizeTP {R : Type} (funcs : Nat → R) (p : PackState R)
    (ord : List Nat) :
    (runPackTasks funcs p ord).strat.sizeTP = p.strat.sizeTP := by
  induction ord generalizing p with
  | nil => rfl
  | cons i rest ih => simp [runPackTasks_cons, ih, runPackTask, LockFreeState.signalTaskComplete]

/-- The result slot `i` after running the work items in order `ord`: it
holds the bound function's value as soon as slot `i`'s item has run, and is
untouched otherwise (every run of item `i` writes the same value
`funcs i`). -/
theorem runPackTasks_results_getElem {R : Type} (funcs : Nat → R) (p : PackState R)
    (ord : List Nat) (i : Nat) (hi : i < p.results.length) :
    (runPackTasks funcs p ord).results[i]? =
      if i ∈ ord then some (some (funcs i)) else p.results[i]? := by
  induction ord generalizing p with
  | nil => simp [runPackTasks]
  | cons o rest ih =>
      rw [runPackTasks_cons]
      have hlen : i < ((runPackTask funcs p o).1).results.length := by
        simp [runPackTask, hi]
      rw [ih _ hlen]
      by_cases hmem : i ∈ rest
      · simp [hmem]
      · by_cases hio : i = o
        · subst hio
          simp [hmem, runPackTask, List.getElem?_set, hi]
        · simp [hmem, hio, runPackTask, List.getElem?_set, Ne.symm hio]

/-! ## The worker pool (spec section 4.1)

`MPMCThreadPool` (header lines 48-254) owns `_threads` (the thread
handles), `_actives` (one keep-running flag per slot), the live count
`_nActives`, the shared task queue, the global flag `_active`, and a
mutex/condition-variable pair for parking idle workers (header lines
243-250).  The bodies live in the missing `inlines/MPMCThreadPool.inl`, so
the operations below are modelled from spec section 4.1. -/

theorem flipFirstTrue_countFlags (n : Nat) (l : List WorkerSlot) :
    countFlags (flipFirstTrue n l) = countFlags l - min n (countFlags l) := by
  induction l generalizing n with
  | nil => simp [flipFirstTrue, countFlags]
  | cons sl rest ih =>
      match n with
      | 0 => simp [flipFirstTrue]
      | n + 1 =>
          simp only [flipFirstTrue]
          by_cases hk : sl.keepRunning
          · rw [if_pos hk]
            simp only [countFlags, List.countP_cons] at ih ⊢
            rw [ih n]
            simp [hk]
            omega
          · rw [if_neg hk]
            simp only [countFlags, List.countP_cons] at ih ⊢
            rw [ih (n + 1)]
            simp [hk]

theorem flipFirstTrue_countNonRetired (n : Nat) (l : List WorkerSlot) :
    countNonRetired (flipFirstTrue n l) = countNonRetired l := by
  induction l generalizing n with
  | nil => simp [flipFirstTrue]
  | cons sl rest ih =>
      match n with
      | 0 => simp [flipFirstTrue]
      | n + 1 =>
          simp only [flipFirstTrue]
          by_cases hk : sl.keepRunning
          · rw [if_pos hk]
            simp only [countNonRetired, List.countP_cons] at ih ⊢
            rw [ih n]
          · rw [if_neg hk]
            simp only [countNonRetired, List.countP_cons] at ih ⊢
            rw [ih (n + 1)]

theorem flipFirstTrue_length (n : Nat) (l : List WorkerSlot) :
    (flipFirstTrue n l).length = l.length := by
  induction l generalizing n with
  | nil => simp [flipFirstTrue]
  | cons sl rest ih =>
      match n with
      | 0 => rfl
      | n + 1 =>
          simp only [flipFirstTrue]
          by_cases hk : sl.keepRunning
          · rw [if_pos hk]
            simp [ih n]
          · rw [if_neg hk]
            simp [ih (n + 1)]

/-- Shrinking only clears flags: every slot of the result keeps its status,
and a slot still flagged true was already a slot of the input. -/
theorem flipFirstTrue_mem (n : Nat) (l : List WorkerSlot) :
    ∀ x ∈ flipFirstTrue n l, ∃ y ∈ l, x.status = y.status ∧
      (x.keepRunning = true → y = x) := by
  induction l generalizing n with
  | nil => simp [flipFirstTrue]
  | cons sl rest ih =>
      match n with
      | 0 =>
          intro x hx
          exact ⟨x, hx, rfl, fun _ => rfl⟩
      | n + 1 =>
          simp only [flipFirstTrue]
          by_cases hk : sl.keepRunning
          · rw [if_pos hk]
            intro x hx
            rcases List.mem_cons.mp hx with h | h
            · subst h
              exact ⟨sl, List.mem_cons_self .., rfl, fun hcontra => by simp at hcontra⟩
            · obtain ⟨y, hy, h1, h2⟩ := ih n x h
              exact ⟨y, List.mem_cons_of_mem _ hy, h1, h2⟩
          · rw [if_neg hk]
            intro x hx
            rcases List.mem_cons.mp hx with h | h
            · subst h
              exact ⟨x, List.mem_cons_self .., rfl, fun _ => rfl⟩
            · obtain ⟨y, hy, h1, h2⟩ := ih (n + 1) x h
              exact ⟨y, List.mem_cons_of_mem _ hy, h1, h2⟩

theorem setRetiredAt_not_eligible (j : Nat) (l : List WorkerSlot)
    (h : retireEligible j l = false) : setRetiredAt j l = l := by
  induction l generalizing j with
  | nil => simp [setRetiredAt]
  | cons sl rest ih =>
      match j with
      | 0 =>
          simp only [retireEligible, List.getElem?_cons_zero, decide_eq_false_iff_not] at h
          simp [setRetiredAt, h]
      | j + 1 =>
          simp only [retireEligible, List.getElem?_cons_succ] at h
          simp [setRetiredAt, ih j h]

theorem setRetiredAt_eligible_count (j : Nat) (l : List WorkerSlot)
    (h : retireEligible j l = true) :
    countNonRetired (setRetiredAt j l) + 1 = countNonRetired l := by
  induction l generalizing j with
  | nil => simp [retireEligible] at h
  | cons sl rest ih =>
      match j with
      | 0 =>
          simp only [retireEligible, List.getElem?_cons_zero, decide_eq_true_eq] at h
          simp only [setRetiredAt, h, and_true, if_true, h.2]
          simp [countNonRetired, List.countP_cons, h.2]
      | j + 1 =>
          simp only [retireEligible, List.getElem?_cons_succ] at h
          simp only [setRetiredAt]
          simp only [countNonRetired, List.countP_cons] at ih ⊢
          rw [← ih j h]
          omega

/-- Retiring a slot only moves it to `retiredW`: every slot of the result
either was a slot of the input or now carries a false flag. -/
theorem setRetiredAt_mem (j : Nat) (l : List WorkerSlot) :
    ∀ x ∈ setRetiredAt j l, x ∈ l ∨ x.keepRunning = false := by
  induction l generalizing j with
  | nil => simp [setRetiredAt]
  | cons sl rest ih =>
      match j with
      | 0 =>
          by_cases h : sl.keepRunning = false ∧ ¬ sl.status = WorkerStatus.retiredW
          · simp only [setRetiredAt, h, if_true]
            intro x hx
            rcases List.mem_cons.mp hx with hx | hx
            · subst hx
              exact Or.inr (by simp [h.1])
            · exact Or.inl (List.mem_cons_of_mem _ hx)
          · simp only [setRetiredAt, h, if_false]
            intro x hx
            exact Or.inl hx
      | j + 1 =>
          simp only [setRetiredAt]
          intro x hx
          rcases List.mem_cons.mp hx with hx | hx
          · exact Or.inl (by simp [hx])
          · rcases ih j x hx with h | h
            · exact Or.inl (List.mem_cons_of_mem _ h)
            · exact Or.inr h

theorem retireEligible_setRetiredAt (j : Nat) (l : List WorkerSlot) :
    retireEligible j (setRetiredAt j l) = false := by
  induction l generalizing j with
  | nil => simp [setRetiredAt, retireEligible]
  | cons sl rest ih =>
      match j with
      | 0 =>
          by_cases h : sl.keepRunning = false ∧ ¬ sl.status = WorkerStatus.retiredW
          · simp [setRetiredAt, h, retireEligible]
          · simp [setRetiredAt, h, retireEligible]
      | j + 1 =>
          simp only [setRetiredAt, retireEligible, List.getElem?_cons_succ]
          exact ih j

theorem countNonRetired_replicate_active (n : Nat) :
    countNonRetired (List.replicate n ⟨true, WorkerStatus.checkingW⟩) = n := by
  induction n with
  | zero => rfl
  | succ n ih => simp [List.replicate_succ, countNonRetired, List.countP_cons] at ih ⊢; omega

theorem PoolInv_construct (n : Nat) : PoolInv (PoolState.construct n) := by
  constructor
  · exact (countNonRetired_replicate_active n).symm
  · intro sl hsl _
    have := List.eq_of_mem_replicate hsl
    subst this
    simp

theorem PoolInv_step (p : PoolState) (op : PoolOp) (h : PoolInv p) :
    PoolInv (p.step op) := by
  obtain ⟨h1, h2⟩ := h
  match op with
  | PoolOp.expandOp n =>
      constructor
      · simp only [PoolState.step, PoolState.expand, countNonRetired, List.countP_append]
        rw [← countNonRetired]
        rw [← h1]
        have : (List.replicate n (⟨true, WorkerStatus.checkingW⟩ : WorkerSlot)).countP
            (fun sl => decide (¬ sl.status = WorkerStatus.retiredW)) = n :=
          countNonRetired_replicate_active n
        omega
      · intro sl hsl hk
        simp only [PoolState.step, PoolState.expand, List.mem_append] at hsl
        rcases hsl with hsl | hsl
        · exact h2 sl hsl hk
        · have := List.eq_of_mem_replicate hsl
          subst this
          simp
  | PoolOp.shrinkOp n =>
      constructor
      · simp only [PoolState.step, PoolState.shrink]
        rw [flipFirstTrue_countNonRetired]
        exact h1
      · intro sl hsl hk
        obtain ⟨y, hy, hst, heq⟩ := flipFirstTrue_mem n p.slots sl hsl
        have hys := heq hk
        subst hys
        exact h2 _ hy hk
  | PoolOp.retireOp j =>
      by_cases he : retireEligible j p.slots
      · constructor
        · simp only [PoolState.step, PoolState.retire, he, if_true]
          have := setRetiredAt_eligible_count j p.slots he
          omega
        · intro sl hsl hk
          simp only [PoolState.step, PoolState.retire, he, if_true] at hsl
          rcases setRetiredAt_mem j p.slots sl hsl with hm | hm
          · exact h2 sl hm hk
          · rw [hk] at hm; cases hm
      · simp only [PoolState.step, PoolState.retire, he, if_false]
        exact ⟨h1, h2⟩

theorem PoolInv_runOps (p : PoolState) (ops : List PoolOp) (h : PoolInv p) :
    PoolInv (runOps p ops) := by
  induction ops generalizing p with
  | nil => exact h
  | cons op rest ih => exact ih _ (PoolInv_step p op h)

/-- Partition of the non-retired slots into still-flagged ones and
in-flight retirements, valid whenever flagged slots are non-retired. -/
theorem countNonRetired_partition (l : List WorkerSlot)
    (h : ∀ sl ∈ l, sl.keepRunning = true → ¬ sl.status = WorkerStatus.retiredW) :
    countNonRetired l = countFlags l + countInFlight l := by
  induction l with
  | nil => rfl
  | cons sl rest ih =>
      have hrest : ∀ x ∈ rest, x.keepRunning = true → ¬ x.status = WorkerStatus.retiredW :=
        fun x hx => h x (List.mem_cons_of_mem _ hx)
      simp only [countNonRetired, countFlags, countInFlight, List.countP_cons] at ih ⊢
      rw [ih hrest]
      by_cases hk : sl.keepRunning
      · have := h sl (List.mem_cons_self ..) hk
        simp [hk, this]
        omega
      · by_cases hst : sl.status = WorkerStatus.retiredW
        · simp [hk, hst]
        · simp [hk, hst]
          omega

/-! ## Worker loop and pool destruction (spec sections 4.1, C7)

The worker loop (spec section 4.1): "while its flag is true: attempt a
non-blocking dequeue; on success, execute the Work Item to completion and
immediately retry; on failure (queue empty), park on the shared condition
variable until notified, then re-check the flag before resuming". -/

/-! ## The claims -/

/-- C1: for every batch size N ≥ 0, once a Task Pack of N tasks has been
submitted and every task has run (a trace of N completion signals), the
lock-free strategy's `nCompletedTasks()` returns N and the `wait()` exit
test holds; `wait()` cannot pass its exit test after fewer than N signals
(it returns only after exactly N have fired); and the polling `wait()`
loop returns at the first read at which the completed-count it repeatedly
reads has reached the pack size, every earlier read being below it. -/
theorem claim_c1 (N : Nat) (trace reads : List Nat) (j : Nat)
    (htrace : trace.length = N) (hpoll : pollingWait N reads = some j) :
    (runSignals (LockFreeState.fresh N) trace).nCompleted = N ∧
      (runSignals (LockFreeState.fresh N) trace).waitCheck = true ∧
      (∀ t2 : List Nat, t2.length < N →
        (runSignals (LockFreeState.fresh N) t2).waitCheck = false) ∧
      (∃ c, reads[j]? = some c ∧ N ≤ c) ∧
      (∀ m, m < j → ∃ c, reads[m]? = some c ∧ c < N) := by
  obtain ⟨hret, hbelow⟩ := pollingWait_returns N reads j hpoll
  refine ⟨?_, ?_, ?_, hret, hbelow⟩
  · simp [LockFreeState.nCompleted, runSignals_nCompletedTasks, LockFreeState.fresh, htrace]
  · simp [LockFreeState.waitCheck, runSignals_nCompletedTasks, runSignals_sizeTP,
      LockFreeState.fresh, htrace]
  · intro t2 h2
    simp [LockFreeState.waitCheck, runSignals_nCompletedTasks, runSignals_sizeTP,
      LockFreeState.fresh]
    omega

/-- Closed instance of C1 at N = 2, with the waiter reading counter values
1 then 2. -/
theorem claim_c1_witness :
    (runSignals (LockFreeState.fresh 2) [0, 1]).nCompleted = 2 ∧
      (runSignals (LockFreeState.fresh 2) [0, 1]).waitCheck = true ∧
      (∀ t2 : List Nat, t2.length < 2 →
        (runSignals (LockFreeState.fresh 2) t2).waitCheck = false) ∧
      (∃ c, [1, 2][1]? = some c ∧ 2 ≤ c) ∧
      (∀ m, m < 1 → ∃ c, [1, 2][m]? = some c ∧ c < 2) :=
  claim_c1 2 [0, 1] [1, 2] 1 rfl rfl

/-- C2: for every valid index i of a non-void pack, the work item produced
by `setTaskAt(i, f, args...)` invokes the bound call, then stores its value
into result slot i, and only then signals completion (the emitted event
list, third conjunct); consequently, whatever order the workers execute
the pack's items in, after all of them have run (so that `wait()` has
returned: second conjunct) `resultAt(i)` holds exactly the value the bound
function returned (first conjunct). -/
theorem claim_c2 (R : Type) (funcs : Nat → R) (n : Nat) (ord : List Nat)
    (p : PackState R) (i : Nat) (hperm : ord.Perm (List.range n)) (hi : i < n) :
    (runPackTasks funcs (PackState.freshPack R n) ord).resultAt i = some (funcs i) ∧
      (runPackTasks funcs (PackState.freshPack R n) ord).strat.waitCheck = true ∧
      (runPackTask funcs p i).2 =
        [TaskEvent.invokeBound i, TaskEvent.storeResult i, TaskEvent.signalComplete i] := by
  have hlen : ord.length = n := by
    have := hperm.length_eq
    simpa using this
  have hmem : i ∈ ord := by
    rw [hperm.mem_iff]
    simpa using hi
  refine ⟨?_, ?_, rfl⟩
  · have hget := runPackTasks_results_getElem funcs (PackState.freshPack R n) ord i
      (by simp [PackState.freshPack, hi])
    rw [PackState.resultAt, hget]
    simp [hmem]
  · simp [LockFreeState.waitCheck, runPackTasks_strat_nCompletedTasks,
      runPackTasks_strat_sizeTP, PackState.freshPack, LockFreeState.fresh, hlen]

/-- Closed instance of C2: a pack of three squaring tasks executed in the
order 2, 0, 1; slot 1 holds 1 afterwards. -/
theorem claim_c2_witness :
    (runPackTasks (fun k => k * k) (PackState.freshPack Nat 3) [2, 0, 1]).resultAt 1 =
        some 1 ∧
      (runPackTasks (fun k => k * k) (PackState.freshPack Nat 3) [2, 0, 1]).strat.waitCheck
        = true ∧
      (runPackTask (fun k => k * k) (PackState.freshPack Nat 3) 1).2 =
        [TaskEvent.invokeBound 1, TaskEvent.storeResult 1, TaskEvent.signalComplete 1] :=
  claim_c2 Nat (fun k => k * k) 3 [2, 0, 1] (PackState.freshPack Nat 3) 1
    (by decide) (by decide)

/-- C3: under the precondition that `signalTaskComplete(i)` is invoked
exactly once per index i in [0, size) (the trace is a permutation of the
index range), the completed-count along any split of the trace equals the
number of signals so far (each signal adds exactly one), never exceeds
`size`, is monotone (the count at the split never exceeds the final
count), reaches exactly `size` at the end, and never decreases afterwards
whatever further signals arrive. -/
theorem claim_c3 (sizeN : Nat) (trace t1 t2 : List Nat)
    (hperm : trace.Perm (List.range sizeN)) (hsplit : trace = t1 ++ t2) :
    (runSignals (LockFreeState.fresh sizeN) t1).nCompleted = t1.length ∧
      (runSignals (LockFreeState.fresh sizeN) t1).nCompleted ≤ sizeN ∧
      (runSignals (LockFreeState.fresh sizeN) t1).nCompleted ≤
        (runSignals (LockFreeState.fresh sizeN) trace).nCompleted ∧
      (runSignals (LockFreeState.fresh sizeN) trace).nCompleted = sizeN ∧
      (∀ t3 : List Nat, sizeN ≤
        (runSignals (runSignals (LockFreeState.fresh sizeN) trace) t3).nCompleted) := by
  have hlen : trace.length = sizeN := by
    have := hperm.length_eq
    simpa using this
  have hle : t1.length ≤ sizeN := by
    rw [← hlen, hsplit]
    simp
  refine ⟨?_, ?_, ?_, ?_, ?_⟩
  · simp [LockFreeState.nCompleted, runSignals_nCompletedTasks, LockFreeState.fresh]
  · simp [LockFreeState.nCompleted, runSignals_nCompletedTasks, LockFreeState.fresh, hle]
  · simp [LockFreeState.nCompleted, runSignals_nCompletedTasks, LockFreeState.fresh,
      hlen, hle]
  · simp [LockFreeState.nCompleted, runSignals_nCompletedTasks, LockFreeState.fresh, hlen]
  · intro t3
    simp [LockFreeState.nCompleted, runSignals_nCompletedTasks, LockFreeState.fresh, hlen]

/-- Closed instance of C3 at size 3, trace [1, 0, 2] split after one
signal. -/
theorem claim_c3_witness :
    (runSignals (LockFreeState.fresh 3) [1]).nCompleted = 1 ∧
      (runSignals (LockFreeState.fresh 3) [1]).nCompleted ≤ 3 ∧
      (runSignals (LockFreeState.fresh 3) [1]).nCompleted ≤
        (runSignals (LockFreeState.fresh 3) [1, 0, 2]).nCompleted ∧
      (runSignals (LockFreeState.fresh 3) [1, 0, 2]).nCompleted = 3 ∧
      (∀ t3 : List Nat, 3 ≤
        (runSignals (runSignals (LockFreeState.fresh 3) [1, 0, 2]) t3).nCompleted) :=
  claim_c3 3 [1, 0, 2] [1] [0, 2] (by decide) rfl

/-- C4: for the blocking strategy, every `signalTaskComplete(i)` invokes
the callback when one is set (and first), then increments the
completed-count by one; exactly when the post-increment count equals the
batch size it acquires the mutex, sets the done flag and wakes all waiters
(the `setWaitWoken` / `notifyAllWaiters` events fire precisely then); and
the blocking `wait()` returns only once the done flag has been set, which
over a trace from a fresh strategy of size N happens exactly when at least
N ≥ 1 signals have fired. -/
theorem claim_c4 (s : BlockingState) (i N : Nat) (t : List Nat) :
    (s.signalTaskComplete i).1.base.nCompletedTasks = s.base.nCompletedTasks + 1 ∧
      (SigEvent.callbackCall i ∈ (s.signalTaskComplete i).2 ↔
        s.base.hasCallback = true) ∧
      (s.base.hasCallback = true →
        (s.signalTaskComplete i).2.head? = some (SigEvent.callbackCall i)) ∧
      (SigEvent.setWaitWoken ∈ (s.signalTaskComplete i).2 ↔
        s.base.nCompletedTasks + 1 = s.base.sizeTP) ∧
      (SigEvent.notifyAllWaiters ∈ (s.signalTaskComplete i).2 ↔
        s.base.nCompletedTasks + 1 = s.base.sizeTP) ∧
      ((s.signalTaskComplete i).1.waitWoken = true ↔
        (s.waitWoken = true ∨ s.base.nCompletedTasks + 1 = s.base.sizeTP)) ∧
      ((runSignalsB (BlockingState.fresh N) t).waitReturns = true ↔
        (1 ≤ N ∧ N ≤ t.length)) := by
  refine ⟨rfl, ?_, ?_, ?_, ?_, ?_, ?_⟩
  · by_cases hc : s.base.hasCallback <;>
      by_cases hp : s.base.nCompletedTasks + 1 = s.base.sizeTP <;>
        simp [BlockingState.signalTaskComplete, hc, hp]
  · intro hc
    simp [BlockingState.signalTaskComplete, hc]
  · by_cases hc : s.base.hasCallback <;>
      by_cases hp : s.base.nCompletedTasks + 1 = s.base.sizeTP <;>
        simp [BlockingState.signalTaskComplete, hc, hp]
  · by_cases hc : s.base.hasCallback <;>
      by_cases hp : s.base.nCompletedTasks + 1 = s.base.sizeTP <;>
        simp [BlockingState.signalTaskComplete, hc, hp]
  · simp [BlockingState.signalTaskComplete]
  · have h := runSignalsB_waitWoken (BlockingState.fresh N) t
    simp [BlockingState.fresh, LockFreeState.fresh] at h
    simpa [BlockingState.waitReturns] using h

/-- Closed instance of C4: a blocking strategy of size 2 with a callback
set and one task already completed receives the signal for index 0; a
fresh size-2 strategy receives two signals. -/
theorem claim_c4_witness :
    ((⟨⟨2, 1, 0, true⟩, false⟩ : BlockingState).signalTaskComplete 0).1.base.nCompletedTasks =
        (⟨⟨2, 1, 0, true⟩, false⟩ : BlockingState).base.nCompletedTasks + 1 ∧
      (SigEvent.callbackCall 0 ∈ ((⟨⟨2, 1, 0, true⟩, false⟩ : BlockingState).signalTaskComplete 0).2 ↔
        (⟨⟨2, 1, 0, true⟩, false⟩ : BlockingState).base.hasCallback = true) ∧
      ((⟨⟨2, 1, 0, true⟩, false⟩ : BlockingState).base.hasCallback = true →
        ((⟨⟨2, 1, 0, true⟩, false⟩ : BlockingState).signalTaskComplete 0).2.head? =
          some (SigEvent.callbackCall 0)) ∧
      (SigEvent.setWaitWoken ∈ ((⟨⟨2, 1, 0, true⟩, false⟩ : BlockingState).signalTaskComplete 0).2 ↔
        (⟨⟨2, 1, 0, true⟩, false⟩ : BlockingState).base.nCompletedTasks + 1 =
          (⟨⟨2, 1, 0, true⟩, false⟩ : BlockingState).base.sizeTP) ∧
      (SigEvent.notifyAllWaiters ∈ ((⟨⟨2, 1, 0, true⟩, false⟩ : BlockingState).signalTaskComplete 0).2 ↔
        (⟨⟨2, 1, 0, true⟩, false⟩ : BlockingState).base.nCompletedTasks + 1 =
          (⟨⟨2, 1, 0, true⟩, false⟩ : BlockingState).base.sizeTP) ∧
      (((⟨⟨2, 1, 0, true⟩, false⟩ : BlockingState).signalTaskComplete 0).1.waitWoken = true ↔
        ((⟨⟨2, 1, 0, true⟩, false⟩ : BlockingState).waitWoken = true ∨
          (⟨⟨2, 1, 0, true⟩, false⟩ : BlockingState).base.nCompletedTasks + 1 =
            (⟨⟨2, 1, 0, true⟩, false⟩ : BlockingState).base.sizeTP)) ∧
      ((runSignalsB (BlockingState.fresh 2) [0, 1]).waitReturns = true ↔
        (1 ≤ 2 ∧ 2 ≤ ([0, 1] : List Nat).length)) :=
  claim_c4 ⟨⟨2, 1, 0, true⟩, false⟩ 0 2 [0, 1]

/-- C5: for every pool satisfying the bookkeeping invariant with no
in-flight retirements, `shrink(n)` flips the flags of exactly
`min(n, size())` active slots to false: an over-request is silently
clamped (the call is defined for every n and changes nothing else: the
live count is untouched by the call itself and the decrements the retiring
workers will perform never exceed it, so the count cannot go below
zero). -/
theorem claim_c5 (p : PoolState) (n : Nat) (hInv : PoolInv p)
    (hq : countInFlight p.slots = 0) :
    countFlags p.slots - countFlags ((p.shrink n).slots) = min n p.nActives ∧
      countFlags ((p.shrink n).slots) = p.nActives - min n p.nActives ∧
      min n p.nActives ≤ p.nActives ∧
      (p.shrink n).nActives = p.nActives ∧
      (p.shrink n).slots.length = p.slots.length := by
  obtain ⟨h1, h2⟩ := hInv
  have hpart := countNonRetired_partition p.slots h2
  have hcf : countFlags p.slots = p.nActives := by omega
  have hflip := flipFirstTrue_countFlags n p.slots
  refine ⟨?_, ?_, by omega, rfl, flipFirstTrue_length n p.slots⟩
  · simp only [PoolState.shrink]
    rw [hflip, hcf]
    omega
  · simp only [PoolState.shrink]
    rw [hflip, hcf]

/-- Closed instance of C5: a pool of two active workers shrunk by five —
the over-request retires exactly two slots. -/
theorem claim_c5_witness :
    countFlags (PoolState.construct 2).slots -
        countFlags (((PoolState.construct 2).shrink 5).slots) =
        min 5 (PoolState.construct 2).nActives ∧
      countFlags (((PoolState.construct 2).shrink 5).slots) =
        (PoolState.construct 2).nActives - min 5 (PoolState.construct 2).nActives ∧
      min 5 (PoolState.construct 2).nActives ≤ (PoolState.construct 2).nActives ∧
      ((PoolState.construct 2).shrink 5).nActives = (PoolState.construct 2).nActives ∧
      ((PoolState.construct 2).shrink 5).slots.length = (PoolState.construct 2).slots.length :=
  claim_c5 (PoolState.construct 2) 5 ⟨rfl, by decide⟩ rfl

/-- C6: in every state reachable from construction by expand, shrink and
worker retirements, the live count `_nActives` equals the number of slots
whose keep-running flag is true plus the in-flight retirements (flag
already false, worker not yet done); `expand(n)` increases the live count
by exactly n; and an eligible retiring worker decrements it exactly once —
the decrement happens, and repeating the retirement changes nothing. -/
theorem claim_c6 (P : Nat) (ops : List PoolOp) (q : PoolState) (n j : Nat)
    (hq : PoolInv q) (hel : retireEligible j q.slots = true) :
    (runOps (PoolState.construct P) ops).nActives =
        countFlags (runOps (PoolState.construct P) ops).slots +
          countInFlight (runOps (PoolState.construct P) ops).slots ∧
      (q.expand n).nActives = q.nActives + n ∧
      (q.retire j).nActives + 1 = q.nActives ∧
      (q.retire j).retire j = q.retire j := by
  have hinv := PoolInv_runOps (PoolState.construct P) ops (PoolInv_construct P)
  refine ⟨?_, rfl, ?_, ?_⟩
  · rw [hinv.1]
    exact countNonRetired_partition _ hinv.2
  · have hcount := setRetiredAt_eligible_count j q.slots hel
    have h1 := hq.1
    simp only [PoolState.retire, hel, if_true]
    omega
  · simp [PoolState.retire, hel, retireEligible_setRetiredAt]

/-- Closed instance of C6: one worker, shrunk away, then retiring slot 0
of a pool whose single slot is flagged off. -/
theorem claim_c6_witness :
    (runOps (PoolState.construct 1) [PoolOp.shrinkOp 1]).nActives =
        countFlags (runOps (PoolState.construct 1) [PoolOp.shrinkOp 1]).slots +
          countInFlight (runOps (PoolState.construct 1) [PoolOp.shrinkOp 1]).slots ∧
      ((⟨true, [⟨false, WorkerStatus.checkingW⟩], 1⟩ : PoolState).expand 2).nActives =
        (⟨true, [⟨false, WorkerStatus.checkingW⟩], 1⟩ : PoolState).nActives + 2 ∧
      ((⟨true, [⟨false, WorkerStatus.checkingW⟩], 1⟩ : PoolState).retire 0).nActives + 1 =
        (⟨true, [⟨false, WorkerStatus.checkingW⟩], 1⟩ : PoolState).nActives ∧
      ((⟨true, [⟨false, WorkerStatus.checkingW⟩], 1⟩ : PoolState).retire 0).retire 0 =
        (⟨true, [⟨false, WorkerStatus.checkingW⟩], 1⟩ : PoolState).retire 0 :=
  claim_c6 1 [PoolOp.shrinkOp 1] ⟨true, [⟨false, WorkerStatus.checkingW⟩], 1⟩ 2 0
    ⟨rfl, by decide⟩ (by decide)

/-- C7: destructing a pool flips the global active flag and every slot's
flag to false and wakes every parked worker (no slot remains parked);
afterwards every worker — whatever it was doing — reaches the retired
state within two loop steps (the join terminates: no deadlock, no leaked
thread), the queue is left exactly as it was (every queued work item is
discarded unexecuted), and the executed list grows only by the single item
a busy worker already held in hand. -/
theorem claim_c7 (p : PoolState) (w : WorkerStatus) (q ex : List Nat) :
    (p.destructFlip).poolActive = false ∧
      (∀ sl ∈ (p.destructFlip).slots, sl.keepRunning = false) ∧
      (∀ sl ∈ (p.destructFlip).slots, ¬ sl.status = WorkerStatus.parkedW) ∧
      stepWorker false (stepWorker false (wakeStatus w, q, ex)) =
        (WorkerStatus.retiredW, q, ex ++ inHand w) := by
  refine ⟨rfl, ?_, ?_, ?_⟩
  · intro sl hsl
    simp only [PoolState.destructFlip, List.mem_map] at hsl
    obtain ⟨y, hy, rfl⟩ := hsl
    rfl
  · intro sl hsl
    simp only [PoolState.destructFlip, List.mem_map] at hsl
    obtain ⟨y, hy, rfl⟩ := hsl
    cases hs : y.status <;> simp [wakeStatus, hs]
  · cases w <;> simp [wakeStatus, stepWorker, inHand]

/-- Closed instance of C7: a one-worker pool is destructed while the
worker is busy on item 5 and item 9 is still queued; the worker retires in
two steps, item 9 stays unexecuted. -/
theorem claim_c7_witness :
    ((PoolState.construct 1).destructFlip).poolActive = false ∧
      (∀ sl ∈ ((PoolState.construct 1).destructFlip).slots, sl.keepRunning = false) ∧
      (∀ sl ∈ ((PoolState.construct 1).destructFlip).slots,
        ¬ sl.status = WorkerStatus.parkedW) ∧
      stepWorker false (stepWorker false (wakeStatus (WorkerStatus.busyW 5), [9], [])) =
        (WorkerStatus.retiredW, [9], [] ++ inHand (WorkerStatus.busyW 5)) :=
  claim_c7 (PoolState.construct 1) (WorkerStatus.busyW 5) [9] []

/-- C8: a Task Pack is never copied or relocated: `TaskPack<R,Traits>`,
its void specialization and its base `internal::TaskPackBase` declare all
four copy/move special members `= delete` (header lines 712-735, 799-822,
571-594), so no usable copy or move construction or assignment exists and
the pack's identity stays pinned for its whole lifetime. -/
theorem claim_c8 :
    taskPackDecls.copyCtorDecl = SpecialMemberDecl.declaredDeleted ∧
      taskPackDecls.moveCtorDecl = SpecialMemberDecl.declaredDeleted ∧
      taskPackDecls.copyAssignDecl = SpecialMemberDecl.declaredDeleted ∧
      taskPackDecls.moveAssignDecl = SpecialMemberDecl.declaredDeleted ∧
      taskPackVoidDecls = taskPackDecls ∧
      taskPackBaseDecls = taskPackDecls ∧
      relocatable taskPackDecls taskPackMembers = false ∧
      relocatable taskPackVoidDecls taskPackMembers = false ∧
      relocatable taskPackBaseDecls [⟨"_tasks", true, true⟩] = false := by
  decide

/-- C9: a `TaskPack` instantiated without naming a completion strategy
uses the blocking one: the default template argument is
`TaskPackTraitsDefault` (header line 690), which header line 526 aliases
to `TaskPackTraitsBlocking`, not to the lock-free (polling) strategy. -/
theorem claim_c9 :
    taskPackDefaultTraitsArg = CompletionStrategyId.blockingStrategy ∧
      TaskPackTraitsDefault = CompletionStrategyId.blockingStrategy ∧
      ¬ taskPackDefaultTraitsArg = CompletionStrategyId.lockFreeStrategy := by
  decide

/-- C10: the pool's move constructor and move assignment are declared
`= default` (header lines 90, 122) even though their doc comments say the
pool cannot be moved; because members such as `_mutex`, `_condVar`,
`_flag`, `_active` and `_nActives` are non-movable, the defaulted moves
are implicitly deleted, and the copy operations are explicitly deleted —
so `MPMCThreadPool` is neither copyable nor movable and no operation ever
relocates a pool after construction. -/
theorem claim_c10 :
    mpmcThreadPoolDecls.moveCtorDecl = SpecialMemberDecl.declaredDefault ∧
      mpmcThreadPoolDecls.moveAssignDecl = SpecialMemberDecl.declaredDefault ∧
      mpmcThreadPoolDecls.copyCtorDecl = SpecialMemberDecl.declaredDeleted ∧
      mpmcThreadPoolDecls.copyAssignDecl = SpecialMemberDecl.declaredDeleted ∧
      (∃ m ∈ mpmcThreadPoolMembers, m.memberMovable = false) ∧
      moveOpUsable mpmcThreadPoolDecls.moveCtorDecl mpmcThreadPoolMembers = false ∧
      moveOpUsable mpmcThreadPoolDecls.moveAssignDecl mpmcThreadPoolMembers = false ∧
      copyOpUsable mpmcThreadPoolDecls.copyCtorDecl mpmcThreadPoolMembers = false ∧
      copyOpUsable mpmcThreadPoolDecls.copyAssignDecl mpmcThreadPoolMembers = false ∧
      relocatable mpmcThreadPoolDecls mpmcThreadPoolMembers = false := by
  decide

end MPMCTP
